import Mathlib

/-!
Verification of the memory-bandwidth profiler (`main.c`).

The C program times a catalogue of memory kernels over a fixed 1 GiB
buffer.  We embed the measurement harness shallowly:

* machine integers (`size_t`, `unsigned long long`) become `Nat`;
* `double` time values become `ℚ` (all arithmetic the harness performs on
  them — subtraction, comparison, division by constants — is exact);
* the monotonic clock is a stream `c : ℕ → ℚ` giving the value returned
  by the k-th call to `monotonic_time()`;
* kernel invocations are recorded as events `(offset, length)` rather than
  executed — only their timing matters to the harness;
* the `assert` in `timeitp` is modelled by `Option`: `none` is an aborted
  run.
-/

namespace MemBw

/-- `#define SAMPLES 5` -/
def SAMPLES : ℕ := 5

/-- `#define TIMES 5` -/
def TIMES : ℕ := 5

/-- `#define BYTES_PER_GB (1024*1024*1024LL)` -/
def BYTES_PER_GB : ℕ := 1024 * 1024 * 1024

/-- `#define MAX_SIZE (1*BYTES_PER_GB)` -/
def MAX_SIZE : ℕ := 1 * BYTES_PER_GB

/-- `#define PAGE_SIZE (1<<12)` -/
def PAGE_SIZE : ℕ := 1 <<< 12

/-- `static inline double to_bw(size_t bytes, double secs)`:
`size_gb = bytes / BYTES_PER_GB; return size_gb / secs`. -/
def to_bw (bytes : ℕ) (secs : ℚ) : ℚ :=
  ((bytes : ℚ) / (BYTES_PER_GB : ℚ)) / secs

/-- One step of the C running minimum `if (total < min) min = total;`
where `min` starts at `INFINITY`; `none` models `INFINITY`. -/
def minStep (m : Option ℚ) (total : ℚ) : Option ℚ :=
  match m with
  | none => some total
  | some v => if total < v then some total else some v

/-- Events observable from the single-thread sampler `timeit`:
clock reads and kernel invocations `function(&array[off], len)`. -/
inductive Ev : Type
  | clk : Ev
  | inv (off len : ℕ) : Ev
  deriving DecidableEq, Repr

/-- State of the `timeit` loop: number of clock calls made so far, the
running minimum, and the event trace so far. -/
structure TState : Type where
  clkCount : ℕ
  minv : Option ℚ
  trace : List Ev
  deriving DecidableEq, Repr

/-- One iteration of the `timeit` sample loop (`main.c:91-105`):
`before = monotonic_time()`, then `TIMES` calls `function(array, SIZE)`,
then `after = monotonic_time()`, `total = after - before`, running min. -/
def runSample (c : ℕ → ℚ) (S : ℕ) (st : TState) : TState :=
  let before := c st.clkCount
  let after := c (st.clkCount + 1)
  let total := after - before
  { clkCount := st.clkCount + 2
    minv := minStep st.minv total
    trace := st.trace ++ (Ev.clk :: (List.replicate TIMES (Ev.inv 0 S) ++ [Ev.clk])) }

/-- The `timeit` sample loop run for `n` iterations. -/
def timeitRun (c : ℕ → ℚ) (S : ℕ) : ℕ → TState
  | 0 => ⟨0, none, []⟩
  | n + 1 => runSample c S (timeitRun c S n)

/-- `void timeit(...)` (`main.c:88-108`): `SAMPLES` iterations of the
sample loop. -/
def timeit (c : ℕ → ℚ) (S : ℕ) : TState :=
  timeitRun c S SAMPLES

/-- The bandwidth printed by `timeit` (`main.c:107`):
`to_bw(SIZE * TIMES, min)`.  `none` would mean `min` was never updated. -/
def timeitBW (c : ℕ → ℚ) (S : ℕ) : Option ℚ :=
  (timeit c S).minv.map (fun m => to_bw (S * TIMES) m)

/-- The event sequence of one `timeit` trial (`main.c:94-99`): a clock
read, `TIMES` invocations `function(array, SIZE)` over the full view,
a clock read. -/
def trialTrace (S : ℕ) : List Ev :=
  Ev.clk :: (List.replicate TIMES (Ev.inv 0 S) ++ [Ev.clk])

/-- The elapsed times `after - before` of the first `n` trials, given the
clock stream: trial `i` makes clock calls `2*i` and `2*i+1`. -/
def elapsedList (c : ℕ → ℚ) (n : ℕ) : List ℚ :=
  (List.range n).map (fun i => c (2 * i + 1) - c (2 * i))

/-- The byte range assigned to thread `i` in `timeitp` (`main.c:60,68`):
`function(&array[chunk_size * omp_get_thread_num()], chunk_size)` with
`chunk_size = SIZE / omp_get_max_threads()`. -/
def chunk (S T i : ℕ) : Finset ℕ :=
  Finset.Ico (S / T * i) (S / T * i + S / T)

/-- All kernel invocations `(offset, length)` of one `timeitp` sample:
thread `i < T` performs `TIMES` invocations over its chunk. -/
def sampleInvs (S T : ℕ) : List (ℕ × ℕ) :=
  (List.range T).flatMap (fun i => List.replicate TIMES (S / T * i, S / T))

/-- State of the `timeitp` loop: clock calls made by the master thread,
the running minimum, and all kernel invocations performed so far. -/
structure PState : Type where
  clkCount : ℕ
  minv : Option ℚ
  invs : List (ℕ × ℕ)
  deriving DecidableEq, Repr

/-- One iteration of the `timeitp` sample loop (`main.c:55-79`).  The
`assert(SIZE % omp_get_max_threads() == 0)` runs first; its failure
aborts the run (`none`).  Otherwise the master reads the clock at a
barrier, every thread runs `TIMES` passes over its private chunk, and
the master reads the clock at the second barrier. -/
def runSampleP (c : ℕ → ℚ) (S T : ℕ) (st : PState) : Option PState :=
  if S % T = 0 then
    some { clkCount := st.clkCount + 2
           minv := minStep st.minv (c (st.clkCount + 1) - c st.clkCount)
           invs := st.invs ++ sampleInvs S T }
  else
    none

/-- The `timeitp` sample loop run for `n` iterations. -/
def timeitpRun (c : ℕ → ℚ) (S T : ℕ) : ℕ → Option PState
  | 0 => some ⟨0, none, []⟩
  | n + 1 => (timeitpRun c S T n).bind (runSampleP c S T)

/-- `void timeitp(...)` (`main.c:52-82`): `SAMPLES` iterations of the
parallel sample loop, with `T = omp_get_max_threads()`. -/
def timeitp (c : ℕ → ℚ) (S T : ℕ) : Option PState :=
  timeitpRun c S T SAMPLES

/-- The bandwidth printed by `timeitp` (`main.c:81`):
`to_bw(SIZE * TIMES, min)`; `none` if the run aborted. -/
def timeitpBW (c : ℕ → ℚ) (S T : ℕ) : Option ℚ :=
  (timeitp c S T).bind (fun st => st.minv.map (fun m => to_bw (S * TIMES) m))

/-- The Active Size recomputed for the multi-core pass (`main.c:145-146`):
`npages_per_thread = (MAX_SIZE / omp_get_max_threads()) / PAGE_SIZE;`
`SIZE = PAGE_SIZE * npages_per_thread * omp_get_max_threads();` -/
def omp_SIZE (T : ℕ) : ℕ :=
  PAGE_SIZE * ((MAX_SIZE / T) / PAGE_SIZE) * T

/-- Top-level events of `main` (`main.c:110-175`): buffer initializations
(`memset(array, 0xFF, SIZE)`) and timed kernel runs (`timefun` /
`timefunp`). -/
inductive MainEv : Type
  | init (size : ℕ) : MainEv
  | timed (omp : Bool) (name : String) : MainEv
  deriving DecidableEq, Repr

/-- The kernel catalogue of the full build (`__SSE4_1__`, `__AVX__` and
`WITH_OPENMP` all enabled), in program order (`main.c:121-141`). -/
def kernelNames : List String :=
  ["read_memory_rep_lodsq", "read_memory_loop", "read_memory_sse",
   "read_memory_avx", "read_memory_prefetch_avx",
   "write_memory_loop", "write_memory_rep_stosq", "write_memory_sse",
   "write_memory_nontemporal_sse", "write_memory_avx",
   "write_memory_nontemporal_avx", "write_memory_memset"]

/-- Event order of `main` in the full multi-core build, for
`T = omp_get_max_threads()`: `memset` (`main.c:111`), the single-core
timed runs, `memset` again (`main.c:148`), the multi-core timed runs. -/
def mainEvents (T : ℕ) : List MainEv :=
  MainEv.init MAX_SIZE :: (kernelNames.map (MainEv.timed false) ++
    (MainEv.init (omp_SIZE T) :: kernelNames.map (MainEv.timed true)))

/-- Recognizer for buffer-initialization events. -/
def isInit : MainEv → Bool
  | MainEv.init _ => true
  | MainEv.timed _ _ => false

/-- Recognizer for timed kernel runs. -/
def isTimed : MainEv → Bool
  | MainEv.init _ => false
  | MainEv.timed _ _ => true

/-- A clock stream whose five trials have elapsed times
`[0.9, 0.5, 0.7, 0.6, 0.8]`. -/
def exClock (k : ℕ) : ℚ :=
  [0, 9/10, 1, 3/2, 2, 27/10, 3, 18/5, 4, 24/5].getD k 0

/-! ## Helper lemmas -/

theorem ite_lt_eq_min (t v : ℚ) : (if t < v then t else v) = min v t := by
  rcases le_or_lt v t with h | h
  · simp [min_def, h, not_lt.mpr h]
  · simp [min_def, h, not_le.mpr h, le_of_lt h]

theorem min?_append_one (l : List ℚ) (x : ℚ) :
    (l ++ [x]).min? = some (l.min?.elim x (fun m => min m x)) := by
  induction l with
  | nil => simp
  | cons a t ih =>
    simp only [List.cons_append, List.min?_cons, ih, Option.elim_some]
    cases h : t.min? with
    | none => simp
    | some m => simp [min_assoc]

theorem minStep_min? (l : List ℚ) (x : ℚ) : minStep l.min? x = (l ++ [x]).min? := by
  rw [min?_append_one]
  cases h : l.min? with
  | none => simp [minStep]
  | some m =>
    simp only [minStep, Option.elim_some]
    rw [← apply_ite some, ite_lt_eq_min]

theorem elapsedList_succ (c : ℕ → ℚ) (n : ℕ) :
    elapsedList c (n + 1) = elapsedList c n ++ [c (2 * n + 1) - c (2 * n)] := by
  simp [elapsedList, List.range_succ]

theorem timeitRun_clkCount (c : ℕ → ℚ) (S n : ℕ) :
    (timeitRun c S n).clkCount = 2 * n := by
  induction n with
  | zero => rfl
  | succ n ih => simp only [timeitRun, runSample]; omega

theorem timeitRun_minv (c : ℕ → ℚ) (S n : ℕ) :
    (timeitRun c S n).minv = (elapsedList c n).min? := by
  induction n with
  | zero => rfl
  | succ n ih =>
    simp only [timeitRun, runSample]
    rw [timeitRun_clkCount, ih, elapsedList_succ, minStep_min?]

theorem timeitRun_trace (c : ℕ → ℚ) (S n : ℕ) :
    (timeitRun c S n).trace = (List.replicate n (trialTrace S)).flatten := by
  induction n with
  | zero => rfl
  | succ n ih =>
    simp only [timeitRun, runSample]
    rw [ih, List.replicate_succ' n (trialTrace S), List.flatten_append]
    simp [trialTrace]

/-! ## Claim theorems -/

/-- **C1**: `timeit` performs `SAMPLES` trials; each trial reads the clock,
invokes the kernel `TIMES` times back-to-back over the full buffer view
`[0, S)`, reads the clock again, and its elapsed time is the clock
difference; the trial set is reduced by minimum, and the reported
bandwidth is `(S * TIMES)` bytes divided by the minimal elapsed time in
binary (1024-based) GiB/s.  In particular the elapsed-time set
`[0.9, 0.5, 0.7, 0.6, 0.8]` is reduced to `0.5`. -/
theorem timeit_sampler_spec :
    (∀ (c : ℕ → ℚ) (S : ℕ),
      (timeit c S).trace = (List.replicate SAMPLES (trialTrace S)).flatten ∧
      trialTrace S = Ev.clk :: (List.replicate TIMES (Ev.inv 0 S) ++ [Ev.clk]) ∧
      (timeit c S).minv = (elapsedList c SAMPLES).min? ∧
      timeitBW c S = ((elapsedList c SAMPLES).min?).map
        (fun m => ((S * TIMES : ℕ) : ℚ) / ((BYTES_PER_GB : ℕ) : ℚ) / m)) ∧
    elapsedList exClock SAMPLES = [9/10, 1/2, 7/10, 3/5, 4/5] ∧
    (elapsedList exClock SAMPLES).min? = some (1/2) := by
  have hlist : elapsedList exClock SAMPLES = [9/10, 1/2, 7/10, 3/5, 4/5] := by
    show (List.range 5).map _ = _
    norm_num [List.range_succ, exClock]
  refine ⟨fun c S => ⟨timeitRun_trace c S SAMPLES, rfl, timeitRun_minv c S SAMPLES, ?_⟩,
    hlist, ?_⟩
  · unfold timeitBW timeit
    rw [timeitRun_minv]
    rfl
  · rw [hlist]
    norm_num [List.min?_cons, min_def]

/-- **C5**: `to_bw(4 * BYTES_PER_GB, 2.0) = 2.00` GiB/s in binary
(1024-based) units. -/
theorem to_bw_four_gb_two_secs : to_bw (4 * BYTES_PER_GB) 2 = 2 := by
  unfold to_bw BYTES_PER_GB
  norm_num

theorem chunk_disjoint_of_lt (S T : ℕ) {i j : ℕ} (hij : i < j) :
    Disjoint (chunk S T i) (chunk S T j) := by
  rw [Finset.disjoint_left]
  intro x hxi hxj
  simp only [chunk, Finset.mem_Ico] at hxi hxj
  have h1 : S / T * i + S / T ≤ S / T * j := by
    rw [← Nat.mul_succ]
    exact Nat.mul_le_mul le_rfl hij
  exact absurd (lt_of_lt_of_le hxi.2 (le_trans h1 hxj.1)) (lt_irrefl x)

theorem chunk_biUnion (S T : ℕ) (hdvd : T ∣ S) :
    (Finset.range T).biUnion (chunk S T) = Finset.Ico 0 S := by
  have hc : S / T * T = S := Nat.div_mul_cancel hdvd
  ext x
  simp only [Finset.mem_biUnion, Finset.mem_range, chunk, Finset.mem_Ico,
    Nat.zero_le, true_and]
  constructor
  · rintro ⟨i, hi, _, h2⟩
    calc x < S / T * i + S / T := h2
    _ = S / T * (i + 1) := (Nat.mul_succ _ _).symm
    _ ≤ S / T * T := Nat.mul_le_mul le_rfl hi
    _ = S := hc
  · intro hx
    rcases Nat.eq_zero_or_pos (S / T) with h0 | hpos
    · rw [← hc, h0] at hx
      omega
    · refine ⟨x / (S / T), ?_, ?_, ?_⟩
      · exact Nat.div_lt_of_lt_mul (by rw [hc]; exact hx)
      · exact Nat.le.intro (Nat.div_add_mod x (S / T))
      · calc x = S / T * (x / (S / T)) + x % (S / T) :=
            (Nat.div_add_mod x (S / T)).symm
        _ < S / T * (x / (S / T)) + S / T :=
            Nat.add_lt_add_left (Nat.mod_lt x hpos) _

/-- **C2**: given `T ≥ 1` and `S` pre-rounded so that
`S mod (T * page_size) = 0`, thread `i` is assigned the byte range
`[i * S/T, (i+1) * S/T)`; the `T` chunk ranges are pairwise disjoint and
their union is exactly `[0, S)`. -/
theorem partition_disjoint_union (T S : ℕ) (hT : 1 ≤ T)
    (hdvd : (T * PAGE_SIZE) ∣ S) :
    (∀ i, chunk S T i = Finset.Ico (i * (S / T)) ((i + 1) * (S / T))) ∧
    (∀ i j, i < T → j < T → i ≠ j → Disjoint (chunk S T i) (chunk S T j)) ∧
    (Finset.range T).biUnion (chunk S T) = Finset.Ico 0 S := by
  have hTd : T ∣ S := dvd_trans (dvd_mul_right T PAGE_SIZE) hdvd
  refine ⟨fun i => ?_, fun i j _ _ hij => ?_, chunk_biUnion S T hTd⟩
  · rw [chunk, Nat.mul_comm, Nat.succ_mul]
  · rcases hij.lt_or_lt with h | h
    · exact chunk_disjoint_of_lt S T h
    · exact (chunk_disjoint_of_lt S T h).symm

theorem omp_SIZE_eq (T : ℕ) :
    omp_SIZE T = (PAGE_SIZE * T) * (MAX_SIZE / (PAGE_SIZE * T)) := by
  unfold omp_SIZE
  rw [Nat.div_div_eq_div_mul, Nat.mul_comm T PAGE_SIZE]
  ring

theorem omp_SIZE_le (T : ℕ) : omp_SIZE T ≤ MAX_SIZE := by
  rw [omp_SIZE_eq, Nat.mul_comm]
  exact Nat.div_mul_le_self MAX_SIZE (PAGE_SIZE * T)

theorem omp_SIZE_mod (T : ℕ) : omp_SIZE T % T = 0 := by
  unfold omp_SIZE
  exact Nat.mul_mod_left _ _

/-- **C3**: at the start of the multi-core pass, `SIZE` is recomputed
(`main.c:145-146`) to the largest multiple of `PAGE_SIZE * T` not
exceeding the 1 GiB capacity, and the per-thread chunk length
`SIZE / T` is page-aligned and identical for all threads. -/
theorem omp_SIZE_largest_multiple (T : ℕ) (hT : 1 ≤ T) :
    omp_SIZE T = (PAGE_SIZE * T) * (MAX_SIZE / (PAGE_SIZE * T)) ∧
    (PAGE_SIZE * T) ∣ omp_SIZE T ∧
    omp_SIZE T ≤ MAX_SIZE ∧
    (∀ k, (PAGE_SIZE * T) ∣ k → k ≤ MAX_SIZE → k ≤ omp_SIZE T) ∧
    omp_SIZE T / T = PAGE_SIZE * ((MAX_SIZE / T) / PAGE_SIZE) ∧
    PAGE_SIZE ∣ omp_SIZE T / T := by
  have hP : 0 < PAGE_SIZE := by decide
  have hPT : 0 < PAGE_SIZE * T := Nat.mul_pos hP hT
  have hchunk : omp_SIZE T / T = PAGE_SIZE * ((MAX_SIZE / T) / PAGE_SIZE) := by
    unfold omp_SIZE
    exact Nat.mul_div_cancel _ hT
  refine ⟨omp_SIZE_eq T, ⟨_, omp_SIZE_eq T⟩, omp_SIZE_le T, ?_, hchunk, ?_⟩
  · rintro k ⟨q, hq⟩ hkM
    have hq' : q ≤ MAX_SIZE / (PAGE_SIZE * T) :=
      (Nat.le_div_iff_mul_le hPT).mpr (by rw [Nat.mul_comm]; exact hq ▸ hkM)
    rw [omp_SIZE_eq, hq]
    exact Nat.mul_le_mul le_rfl hq'
  · rw [hchunk]
    exact dvd_mul_right _ _

/-- **C4**: each `timeitp` sample first checks
`assert(SIZE % omp_get_max_threads() == 0)` before partitioning; when the
check fails, every sample — and hence the whole run — aborts instead of
measuring. -/
theorem timeitp_assert_aborts (c : ℕ → ℚ) (S T : ℕ) (h : S % T ≠ 0) :
    (∀ st, runSampleP c S T st = none) ∧ timeitp c S T = none := by
  have hs : ∀ st, runSampleP c S T st = none := by
    intro st
    simp [runSampleP, h]
  have hrun : ∀ n, timeitpRun c S T (n + 1) = none := by
    intro n
    induction n with
    | zero => simp [timeitpRun, hs]
    | succ n ih => rw [timeitpRun, ih]; rfl
  exact ⟨hs, hrun 4⟩

theorem timeitpRun_eq (c : ℕ → ℚ) (S T : ℕ) (h : S % T = 0) (n : ℕ) :
    timeitpRun c S T n =
      some ⟨2 * n, (elapsedList c n).min?,
            (List.replicate n (sampleInvs S T)).flatten⟩ := by
  induction n with
  | zero => rfl
  | succ n ih =>
    rw [timeitpRun, ih]
    simp only [Option.some_bind, runSampleP, h, if_pos]
    rw [minStep_min?, ← elapsedList_succ,
      List.replicate_succ' n (sampleInvs S T), List.flatten_append]
    simp [Nat.mul_succ]

/-- **C8**: with the recomputed Active Size `omp_SIZE T`, the divisibility
assertion inside `timeitp` never fires: the multi-core run always
completes for every thread count `T ≥ 1`. -/
theorem omp_assert_never_fails (T : ℕ) (hT : 1 ≤ T) (c : ℕ → ℚ) :
    omp_SIZE T % T = 0 ∧
    timeitp c (omp_SIZE T) T =
      some ⟨2 * SAMPLES, (elapsedList c SAMPLES).min?,
            (List.replicate SAMPLES (sampleInvs (omp_SIZE T) T)).flatten⟩ :=
  ⟨omp_SIZE_mod T, timeitpRun_eq c _ T (omp_SIZE_mod T) SAMPLES⟩

theorem flatMap_const_replicate {α β : Type} (l : List α) (k : ℕ) (b : β) :
    (l.flatMap (fun _ => List.replicate k b)) = List.replicate (l.length * k) b := by
  induction l with
  | nil => simp
  | cons a t ih =>
    rw [List.flatMap_cons, ih, ← List.replicate_add]
    congr 1
    rw [List.length_cons, Nat.succ_mul, Nat.add_comm]

theorem map_snd_sampleInvs (S T : ℕ) :
    (sampleInvs S T).map Prod.snd = List.replicate (T * TIMES) (S / T) := by
  unfold sampleInvs
  rw [List.map_flatMap]
  simp only [List.map_replicate]
  rw [flatMap_const_replicate, List.length_range]

/-- **C6**: the multi-core pass reports bandwidth through the identical
formula as the single-thread pass — `to_bw(SIZE * TIMES, min elapsed)` —
and the aggregate bytes moved per sample, summed across all `T` threads,
equal `S * TIMES`. -/
theorem both_passes_same_formula (c : ℕ → ℚ) (S T : ℕ) (hT : 1 ≤ T)
    (h : S % T = 0) :
    timeitpBW c S T = timeitBW c S ∧
    timeitBW c S =
      ((elapsedList c SAMPLES).min?).map (fun m => to_bw (S * TIMES) m) ∧
    ((sampleInvs S T).map Prod.snd).sum = S * TIMES := by
  have h2 : timeitBW c S =
      ((elapsedList c SAMPLES).min?).map (fun m => to_bw (S * TIMES) m) := by
    unfold timeitBW timeit
    rw [timeitRun_minv]
  have h1 : timeitpBW c S T =
      ((elapsedList c SAMPLES).min?).map (fun m => to_bw (S * TIMES) m) := by
    unfold timeitpBW timeitp
    rw [timeitpRun_eq c S T h]
    rfl
  refine ⟨h1.trans h2.symm, h2, ?_⟩
  rw [map_snd_sampleInvs, List.sum_replicate, smul_eq_mul]
  have hdvd : T ∣ S := Nat.dvd_of_mod_eq_zero h
  calc T * TIMES * (S / T) = TIMES * (T * (S / T)) := by ring
  _ = TIMES * S := by rw [Nat.mul_div_cancel' hdvd]
  _ = S * TIMES := Nat.mul_comm _ _

/-- **C9**: every kernel invocation stays inside the 1 GiB buffer: the
single-thread pass hands the kernel `[0, MAX_SIZE)`, and in the
multi-core pass every `(offset, length)` pair satisfies
`offset + length ≤ MAX_SIZE`. -/
theorem invocations_within_buffer (T : ℕ) (hT : 1 ≤ T) (c : ℕ → ℚ) :
    (∀ e ∈ (timeit c MAX_SIZE).trace,
      ∀ off len, e = Ev.inv off len → off + len ≤ MAX_SIZE) ∧
    (∀ st, timeitp c (omp_SIZE T) T = some st →
      ∀ p ∈ st.invs, p.1 + p.2 ≤ MAX_SIZE) := by
  constructor
  · intro e he off len hinv
    rw [timeit, timeitRun_trace, List.mem_flatten] at he
    obtain ⟨l, hl, hel⟩ := he
    rw [List.mem_replicate] at hl
    rw [hl.2, trialTrace, List.mem_cons, List.mem_append,
      List.mem_replicate, List.mem_singleton] at hel
    rcases hel with h1 | ⟨_, h2⟩ | h3
    · rw [h1] at hinv; cases hinv
    · rw [h2] at hinv
      cases hinv
      omega
    · rw [h3] at hinv; cases hinv
  · intro st hst p hp
    rw [timeitp, timeitpRun_eq c _ T (omp_SIZE_mod T)] at hst
    cases hst
    rw [List.mem_flatten] at hp
    obtain ⟨l, hl, hpl⟩ := hp
    rw [List.mem_replicate] at hl
    rw [hl.2, sampleInvs, List.mem_flatMap] at hpl
    obtain ⟨i, hi, hpi⟩ := hpl
    rw [List.mem_replicate] at hpi
    rw [List.mem_range] at hi
    rw [hpi.2]
    have hle : omp_SIZE T / T * i + omp_SIZE T / T ≤ omp_SIZE T := by
      rw [← Nat.mul_succ]
      calc omp_SIZE T / T * (i + 1) ≤ omp_SIZE T / T * T :=
          Nat.mul_le_mul le_rfl hi
      _ ≤ omp_SIZE T := Nat.div_mul_le_self _ _
    exact le_trans hle (omp_SIZE_le T)

theorem to_bw_anti (b : ℕ) {x y : ℚ} (hx : 0 < x) (hxy : x ≤ y) :
    to_bw b y ≤ to_bw b x := by
  unfold to_bw
  gcongr

theorem to_bw_min_eq_max (b : ℕ) {x y : ℚ} (hx : 0 < x) (hy : 0 < y) :
    to_bw b (min x y) = max (to_bw b x) (to_bw b y) := by
  rcases le_total x y with h | h
  · rw [min_eq_left h, max_eq_left (to_bw_anti b hx h)]
  · rw [min_eq_right h, max_eq_right (to_bw_anti b hy h)]

theorem map_to_bw_max? (b : ℕ) :
    ∀ (l : List ℚ), (∀ t ∈ l, 0 < t) →
      (l.map (to_bw b)).max? = (l.min?).map (to_bw b) := by
  intro l
  induction l with
  | nil => intro _; rfl
  | cons a t ih =>
    intro hl
    have ha : 0 < a := hl a (List.mem_cons_self a t)
    have ht : ∀ x ∈ t, 0 < x := fun x hx => hl x (List.mem_cons_of_mem a hx)
    rw [List.map_cons, List.max?_cons, List.min?_cons, ih ht]
    cases h : t.min? with
    | none => simp
    | some m =>
      have hm : 0 < m := ht m (List.min?_mem min_choice h)
      simp [to_bw_min_eq_max b ha hm]

/-- **C10**: for any byte count and any nonempty sample set of strictly
positive elapsed times, the bandwidth of the minimal elapsed time equals
the maximum of the per-sample bandwidths: the min-elapsed reduction is a
max-bandwidth reduction. -/
theorem min_elapsed_is_max_bandwidth (bytes : ℕ) (ts : List ℚ)
    (hne : ts ≠ []) (hpos : ∀ t ∈ ts, 0 < t) :
    (ts.min?).map (to_bw bytes) = (ts.map (to_bw bytes)).max? :=
  (map_to_bw_max? bytes ts hpos).symm

/-- **C7 counterexample**: in the multi-core build the buffer is *not*
initialized exactly once — `main` touches it with `memset` both at
`main.c:111` and at `main.c:148` (shown here for 4 threads). -/
theorem buffer_init_not_exactly_once :
    ¬ ((mainEvents 4).countP isInit = 1) := by
  decide

/-- **C7 amended**: the buffer is initialized before any timed kernel
runs — the trace starts with an initialization, and every timed kernel
run is preceded by one — but it is initialized twice: once at startup
and once more between the single-core and the multi-core pass. -/
theorem buffer_init_twice_before_passes (T : ℕ) :
    (mainEvents T).countP isInit = 2 ∧
    (mainEvents T).head? = some (MainEv.init MAX_SIZE) ∧
    (∀ k e, (mainEvents T).get? k = some e → isTimed e = true →
      ∃ j, j < k ∧ ∃ sz, (mainEvents T).get? j = some (MainEv.init sz)) := by
  refine ⟨rfl, rfl, ?_⟩
  intro k e hk ht
  cases k with
  | zero =>
    have : e = MainEv.init MAX_SIZE := by
      have h0 : (mainEvents T).get? 0 = some (MainEv.init MAX_SIZE) := rfl
      rw [h0] at hk
      exact (Option.some.injEq _ _).mp hk.symm
    rw [this] at ht
    cases ht
  | succ k =>
    exact ⟨0, Nat.succ_pos _, MAX_SIZE, rfl⟩

/-! ## Witnesses -/

theorem partition_disjoint_union_witness :
    1 ≤ 2 ∧ ((2 * PAGE_SIZE) ∣ (2 * PAGE_SIZE)) ∧
    ((∀ i, chunk (2 * PAGE_SIZE) 2 i =
        Finset.Ico (i * ((2 * PAGE_SIZE) / 2)) ((i + 1) * ((2 * PAGE_SIZE) / 2))) ∧
     (∀ i j, i < 2 → j < 2 → i ≠ j →
        Disjoint (chunk (2 * PAGE_SIZE) 2 i) (chunk (2 * PAGE_SIZE) 2 j)) ∧
     (Finset.range 2).biUnion (chunk (2 * PAGE_SIZE) 2) =
        Finset.Ico 0 (2 * PAGE_SIZE)) :=
  ⟨by decide, by decide,
   partition_disjoint_union 2 (2 * PAGE_SIZE) (by decide) (by decide)⟩

theorem omp_SIZE_largest_multiple_witness :
    1 ≤ 4 ∧
    (omp_SIZE 4 = (PAGE_SIZE * 4) * (MAX_SIZE / (PAGE_SIZE * 4)) ∧
     (PAGE_SIZE * 4) ∣ omp_SIZE 4 ∧
     omp_SIZE 4 ≤ MAX_SIZE ∧
     (∀ k, (PAGE_SIZE * 4) ∣ k → k ≤ MAX_SIZE → k ≤ omp_SIZE 4) ∧
     omp_SIZE 4 / 4 = PAGE_SIZE * ((MAX_SIZE / 4) / PAGE_SIZE) ∧
     PAGE_SIZE ∣ omp_SIZE 4 / 4) :=
  ⟨by decide, omp_SIZE_largest_multiple 4 (by decide)⟩

theorem timeitp_assert_aborts_witness :
    (3 % 2 ≠ 0) ∧
    ((∀ st, runSampleP (fun _ => 0) 3 2 st = none) ∧
     timeitp (fun _ => 0) 3 2 = none) :=
  ⟨by decide, timeitp_assert_aborts (fun _ => 0) 3 2 (by decide)⟩

theorem omp_assert_never_fails_witness :
    1 ≤ 4 ∧
    (omp_SIZE 4 % 4 = 0 ∧
     timeitp (fun _ => 0) (omp_SIZE 4) 4 =
       some ⟨2 * SAMPLES, (elapsedList (fun _ => 0) SAMPLES).min?,
             (List.replicate SAMPLES (sampleInvs (omp_SIZE 4) 4)).flatten⟩) :=
  ⟨by decide, omp_assert_never_fails 4 (by decide) (fun _ => 0)⟩

theorem both_passes_same_formula_witness :
    1 ≤ 2 ∧ 4 % 2 = 0 ∧
    (timeitpBW (fun k => (k : ℚ)) 4 2 = timeitBW (fun k => (k : ℚ)) 4 ∧
     timeitBW (fun k => (k : ℚ)) 4 =
       ((elapsedList (fun k => (k : ℚ)) SAMPLES).min?).map
         (fun m => to_bw (4 * TIMES) m) ∧
     ((sampleInvs 4 2).map Prod.snd).sum = 4 * TIMES) :=
  ⟨by decide, by decide,
   both_passes_same_formula (fun k => (k : ℚ)) 4 2 (by decide) (by decide)⟩

theorem invocations_within_buffer_witness :
    1 ≤ 1 ∧
    ((∀ e ∈ (timeit (fun _ => 0) MAX_SIZE).trace,
       ∀ off len, e = Ev.inv off len → off + len ≤ MAX_SIZE) ∧
     (∀ st, timeitp (fun _ => 0) (omp_SIZE 1) 1 = some st →
       ∀ p ∈ st.invs, p.1 + p.2 ≤ MAX_SIZE)) :=
  ⟨by decide, invocations_within_buffer 1 (by decide) (fun _ => 0)⟩

theorem min_elapsed_is_max_bandwidth_witness :
    ([(2 : ℚ), 1] ≠ []) ∧ (∀ t ∈ [(2 : ℚ), 1], 0 < t) ∧
    (([(2 : ℚ), 1].min?).map (to_bw BYTES_PER_GB) =
      ([(2 : ℚ), 1].map (to_bw BYTES_PER_GB)).max?) :=
  ⟨by decide, by decide,
   min_elapsed_is_max_bandwidth BYTES_PER_GB [2, 1] (by decide) (by decide)⟩

theorem buffer_init_twice_before_passes_witness :
    (mainEvents 4).countP isInit = 2 ∧
    (mainEvents 4).head? = some (MainEv.init MAX_SIZE) ∧
    (∃ j, j < 1 ∧ ∃ sz, (mainEvents 4).get? j = some (MainEv.init sz)) := by
  have h := buffer_init_twice_before_passes 4
  exact ⟨h.1, h.2.1, h.2.2 1 (MainEv.timed false "read_memory_rep_lodsq") rfl rfl⟩

end MemBw
